import Mathlib

/-!
# Verification of `scripts/plot_downloads.py`

Shallow embedding of the download-history pipeline of
`scripts/plot_downloads.py` (fetch → merge → gap-fill → window → plot).

Modelling conventions:

* A pandas `DataFrame` with columns `date`, `downloads` (and likewise a
  `pd.Series` of downloads indexed by date) is a `List Row`, where
  `Row = Nat × Int`: the date as a day number (all timestamps in the
  pipeline are midnight-normalized calendar days, so a timestamp is just
  its day count) and the downloads count as an integer
  (`astype(int)` after `to_numeric(..., errors="coerce").fillna(0)`).
* `DataFrame.sort_values("date")` with its default `kind='quicksort'` is
  documented by pandas to be unstable: after the sort, a date-ordered
  permutation is guaranteed but the relative order of equal-date rows is
  unspecified.  That contract is captured by `IsPandasSort` (any
  date-ordered permutation), and `merge_history_with` runs the merge
  over an arbitrary contract-satisfying sort.  `sortByDate` (a stable
  insertion sort) is the deterministic reference model used where tie
  order cannot matter — frames with distinct dates — and it is one
  admissible `IsPandasSort` implementation.  The script's comment at
  `merge_history` ("keep last occurrence per date (new appended later =>
  wins)") assumes stability the default sort kind does not provide;
  statements that depend on equal-date tie order are settled against the
  contract, not against the stable reference model.
* `drop_duplicates(subset=["date"], keep="last")` keeps a row exactly
  when its date does not occur again later in the frame, preserving row
  order.
* `Series.reindex(idx, fill_value=0)` raises `ValueError` when the index
  being reindexed carries duplicate labels; this failure is modelled by
  `Option` (`none` = the `ValueError`).
* `requests.get(...).raise_for_status()` raises `HTTPError` exactly for
  status codes `400 ≤ c < 600`; exceptions of `fetch_pypistats_daily`
  are modelled by `Except`.
* CSV serialisation (`to_csv` / `read_csv`): each cell holds the decimal
  rendering of its value, modelled as a sign flag plus the little-endian
  base-10 digit list (`Nat.digits 10`); parsing back is `Nat.ofDigits`.
  `pd.to_datetime` raises on an unparseable date cell (`Option`);
  `pd.to_numeric(errors="coerce").fillna(0)` turns an unparseable count
  cell into `0`.
-/

/-- A row of the history table: (date as day number, downloads count). -/
abbrev Row : Type := Nat × Int

/-- Comparison used by `sort_values("date")`: order rows by date. -/
def dateLE (a b : Row) : Prop := a.1 ≤ b.1

instance : DecidableRel dateLE := fun a b => Nat.decLe a.1 b.1

instance : IsTotal Row dateLE := ⟨fun a b => Nat.le_total a.1 b.1⟩

instance : IsTrans Row dateLE := ⟨fun _ _ _ h h' => Nat.le_trans h h'⟩

/-- Deterministic reference model of `df.sort_values("date")`: a stable
sort by date.  The real default `kind='quicksort'` guarantees only a
date-ordered permutation (see `IsPandasSort`); `sortByDate` coincides
with every contract-satisfying sort on frames whose equal-date rows are
identical, in particular on frames with distinct dates. -/
def sortByDate (l : List Row) : List Row := l.insertionSort dateLE

/-- `df.drop_duplicates(subset=["date"], keep="last")`: keep a row iff its
date does not occur again later in the frame. -/
def dropDupKeepLast : List Row → List Row
  | [] => []
  | r :: rest =>
    if r.1 ∈ rest.map Prod.fst then dropDupKeepLast rest
    else r :: dropDupKeepLast rest

/-- `merge_history(existing, new)` (plot_downloads.py lines 51-66):
merge with `new` taking precedence on overlapping dates.  Both empty →
empty frame; one empty → a copy of the other; otherwise concatenate
(existing first, new appended after), sort by date, drop duplicate dates
keeping the last occurrence.  The result is sorted by date again
(`merged.sort_values("date").reset_index(drop=True)`). -/
def merge_history (existing new : List Row) : List Row :=
  if existing = [] ∧ new = [] then []
  else
    let merged :=
      if existing = [] then new
      else if new = [] then existing
      else dropDupKeepLast (sortByDate (existing ++ new))
    sortByDate merged

/-- The documented contract of `sort_values("date")` with the default
`kind='quicksort'`: the result is a permutation of the frame ordered by
date; the relative order of equal-date rows is unspecified (pandas
documents only `mergesort`/`stable` as stable kinds). -/
def IsPandasSort (f : List Row → List Row) : Prop :=
  ∀ l, (f l).Perm l ∧ (f l).Sorted dateLE

/-- `merge_history` run over an arbitrary `sort_values` implementation
`f` satisfying the documented contract: same branch structure as
`merge_history`, with every `sort_values("date")` call replaced by `f`.
`merge_history` itself is `merge_history_with sortByDate`. -/
def merge_history_with (f : List Row → List Row) (existing new : List Row) : List Row :=
  if existing = [] ∧ new = [] then []
  else
    let merged :=
      if existing = [] then new
      else if new = [] then existing
      else dropDupKeepLast (f (existing ++ new))
    f merged

/-- A frame on which equal-date tie order cannot matter: any two rows
carrying the same date are identical. -/
def tieUnique (l : List Row) : Prop :=
  ∀ x ∈ l, ∀ y ∈ l, x.1 = y.1 → x = y

/-- `df["date"].min()` over a non-empty frame (0 on the empty frame, which
the callers never hit: the code checks `df.empty` first). -/
def minD (l : List Nat) : Nat :=
  match l with
  | [] => 0
  | a :: t => t.foldl Nat.min a

/-- `df["date"].max()` over a non-empty frame (0 on the empty frame). -/
def maxD (l : List Nat) : Nat :=
  match l with
  | [] => 0
  | a :: t => t.foldl Nat.max a

/-- Label lookup of `df.set_index("date")["downloads"]` at date `d`: the
downloads value of the (first) row with that date. -/
def lookupDate (d : Nat) (l : List Row) : Option Int :=
  (l.find? (fun r => r.1 = d)).map Prod.snd

/-- `ensure_continuous_daily(df)` (plot_downloads.py lines 69-81): empty
frame → empty series; otherwise reindex the date-indexed downloads onto
the daily `pd.date_range` from the minimum to the maximum date, filling
absent days with 0.  All timestamps in the pipeline are already
midnight-normalized, so `.normalize()` is the identity on them.
`reindex` raises `ValueError` when the date index has duplicate labels,
modelled as `none`. -/
def ensure_continuous_daily (df : List Row) : Option (List Row) :=
  if df = [] then some []
  else
    let dates := df.map Prod.fst
    if dates.Nodup then
      let start := minD dates
      let stop := maxD dates
      some ((List.range' start (stop + 1 - start)).map
        (fun d => (d, (lookupDate d df).getD 0)))
    else none

/-- `last_n_days(series, days)` (plot_downloads.py lines 84-99).  `today`
is `pd.Timestamp(date.today())`, passed explicitly.  Anchor the window
at `today` when the series has it, else at the last available day, and
keep the entries between `end - (days - 1)` and `end` inclusive.  Dates
are day numbers, so `end - pd.Timedelta(days=days-1)` is `end + 1 - days`
(truncated subtraction only clips a window start lying before day 0,
where the `index >= start` filter is vacuous anyway). -/
def last_n_days (series : List Row) (days : Nat) (today : Nat) : List Row :=
  if series = [] then series
  else
    let dates := series.map Prod.fst
    let e := if today ∈ dates then today else maxD dates
    let start := e + 1 - days
    series.filter (fun r => start ≤ r.1 ∧ r.1 ≤ e)

/-- A record of the API payload's `data` list: (category, date,
downloads), already coerced (`to_datetime` dates, integer downloads as
`to_numeric(...).fillna(0).astype(int)` yields). -/
abbrev ApiRec : Type := String × Nat × Int

/-- `df.groupby("category")["date"].nunique()` for one category: number
of distinct dates among that category's records. -/
def distinctDates (data : List ApiRec) (c : String) : Nat :=
  ((data.filter (fun r => r.1 = c)).map (fun r => r.2.1)).dedup.length

/-- The index of `df.groupby("category")[...]`: the distinct category
labels, sorted ascending (pandas `groupby` sorts group keys). -/
def categoriesAsc (data : List ApiRec) : List String :=
  (data.map Prod.fst).dedup.insertionSort (· ≤ ·)

/-- `coverage.sort_values(ascending=False).index[0]`: the category list
stably sorted by descending distinct-date count, first entry taken
(`""` unreachable: the caller only evaluates this on non-empty data). -/
def best_category (data : List ApiRec) : String :=
  ((categoriesAsc data).insertionSort
    (fun a b => distinctDates data b ≤ distinctDates data a)).headD ""

/-- The payload-processing tail of `fetch_pypistats_daily` on a
non-empty `data` list (plot_downloads.py lines 29-39): keep only the
records of the best-covered category, sort by date, project to the
`date`/`downloads` columns. -/
def select_best_category (data : List ApiRec) : List Row :=
  sortByDate ((data.filter (fun r => r.1 = best_category data)).map
    (fun r => (r.2.1, r.2.2)))

/-- `fetch_pypistats_daily(package)` (plot_downloads.py lines 13-39) as a
function of the HTTP response it observes: the status code and the
parsed JSON body's `data` field (`none` when the key is absent —
`payload.get("data", [])` then yields `[]`).  `raise_for_status()`
raises `requests.HTTPError` exactly for 4xx/5xx status codes,
modelled as `Except.error`; an empty `data` list returns the empty
frame with `date`/`downloads` columns. -/
def fetch_pypistats_daily (status : Nat) (body : Option (List ApiRec)) :
    Except String (List Row) :=
  if 400 ≤ status ∧ status < 600 then Except.error "HTTPError"
  else
    let data := body.getD []
    if data = [] then Except.ok []
    else Except.ok (select_best_category data)

/-- One CSV cell: sign flag and little-endian base-10 digit list of the
decimal rendering written by `to_csv`. -/
abbrev Cell : Type := Bool × List Nat

/-- Render a date (a day number, hence non-negative) to its CSV cell. -/
def renderDate (d : Nat) : Cell := (false, Nat.digits 10 d)

/-- Render an integer downloads count to its CSV cell. -/
def renderCount (i : Int) : Cell := (decide (i < 0), Nat.digits 10 i.natAbs)

/-- `main` persists the gap-filled series with
`merged_series.to_frame().reset_index().rename(columns={"index": "date"})
.to_csv(history_csv, index=False)` (plot_downloads.py line 154): one CSV
row per series row, in order, cells rendered in decimal. -/
def to_csv_rows (s : List Row) : List (Cell × Cell) :=
  s.map (fun r => (renderDate r.1, renderCount r.2))

/-- `pd.to_datetime` on one date cell: parses a decimal day number,
raising (here `none`) on a malformed cell (a sign, or a non-digit). -/
def parseDate (c : Cell) : Option Nat :=
  if c.1 = false ∧ ∀ x ∈ c.2, x < 10 then some (Nat.ofDigits 10 c.2) else none

/-- `pd.to_numeric(·, errors="coerce").fillna(0).astype(int)` on one
downloads cell: a malformed cell coerces to 0. -/
def parseCount (c : Cell) : Int :=
  if ∀ x ∈ c.2, x < 10 then
    if c.1 then -((Nat.ofDigits 10 c.2 : Nat) : Int) else ((Nat.ofDigits 10 c.2 : Nat) : Int)
  else 0

/-- `load_history(csv_path)` (plot_downloads.py lines 42-48) on the rows
read from an existing CSV file: parse dates (`to_datetime` raises on a
bad cell), coerce counts, and sort by date. -/
def load_history (rows : List (Cell × Cell)) : Option (List Row) :=
  (rows.mapM (fun r => (parseDate r.1).map (fun d => (d, parseCount r.2)))).map
    sortByDate

/-- Outcome of a run of `main` (plot_downloads.py lines 145-161), from
the fetch results onward. -/
inductive MainOutcome : Type where
  | valueError : MainOutcome
  | systemExit : MainOutcome
  | plotted : List Row → MainOutcome
  deriving DecidableEq

/-- The dataflow of `main` after argument parsing, as a function of the
fetched frame, the stored history and today's date: merge, gap-fill
(whose `reindex` raises `ValueError` on duplicate dates), persist, then
window; an empty window raises `SystemExit` (a non-zero process exit)
before `plot_series` runs, otherwise the window is plotted. -/
def main_run (new existing : List Row) (today : Nat) : MainOutcome :=
  let merged := merge_history existing new
  match ensure_continuous_daily merged with
  | none => MainOutcome.valueError
  | some s =>
    let window := last_n_days s 365 today
    if window = [] then MainOutcome.systemExit
    else MainOutcome.plotted window

/-! ## Helper lemmas: `minD` / `maxD` -/

theorem foldl_min_le_init : ∀ (l : List Nat) (a : Nat), l.foldl Nat.min a ≤ a
  | [], _ => Nat.le_refl _
  | b :: t, a =>
    Nat.le_trans (foldl_min_le_init t (Nat.min a b)) (Nat.min_le_left a b)

theorem foldl_min_le_mem : ∀ {l : List Nat} {x : Nat} (a : Nat), x ∈ l → l.foldl Nat.min a ≤ x := by
  intro l
  induction l with
  | nil => intro x a hx; cases hx
  | cons b t ih =>
    intro x a hx
    rcases List.mem_cons.mp hx with h | h
    · subst h
      exact Nat.le_trans (foldl_min_le_init t (Nat.min a x)) (Nat.min_le_right a x)
    · rw [List.foldl_cons]
      exact ih (Nat.min a b) h

theorem foldl_min_mem : ∀ (l : List Nat) (a : Nat), l.foldl Nat.min a = a ∨ l.foldl Nat.min a ∈ l := by
  intro l
  induction l with
  | nil => intro a; exact Or.inl rfl
  | cons b t ih =>
    intro a
    rcases ih (Nat.min a b) with h | h
    · rw [List.foldl_cons, h]
      rcases Nat.le_total a b with hab | hab
      · exact Or.inl (Nat.le_antisymm (Nat.min_le_left a b)
          (Nat.le_min.mpr ⟨Nat.le_refl a, hab⟩))
      · have hm : Nat.min a b = b :=
          Nat.le_antisymm (Nat.min_le_right a b) (Nat.le_min.mpr ⟨hab, Nat.le_refl b⟩)
        exact Or.inr (by rw [hm]; exact List.mem_cons_self b t)
    · exact Or.inr (List.mem_cons_of_mem b h)

theorem init_le_foldl_max : ∀ (l : List Nat) (a : Nat), a ≤ l.foldl Nat.max a
  | [], _ => Nat.le_refl _
  | b :: t, a =>
    Nat.le_trans (Nat.le_max_left a b) (init_le_foldl_max t (Nat.max a b))

theorem mem_le_foldl_max : ∀ {l : List Nat} {x : Nat} (a : Nat), x ∈ l → x ≤ l.foldl Nat.max a := by
  intro l
  induction l with
  | nil => intro x a hx; cases hx
  | cons b t ih =>
    intro x a hx
    rcases List.mem_cons.mp hx with h | h
    · subst h
      exact Nat.le_trans (Nat.le_max_right a x) (init_le_foldl_max t (Nat.max a x))
    · rw [List.foldl_cons]
      exact ih (Nat.max a b) h

theorem foldl_max_mem : ∀ (l : List Nat) (a : Nat), l.foldl Nat.max a = a ∨ l.foldl Nat.max a ∈ l := by
  intro l
  induction l with
  | nil => intro a; exact Or.inl rfl
  | cons b t ih =>
    intro a
    rcases ih (Nat.max a b) with h | h
    · rw [List.foldl_cons, h]
      rcases Nat.le_total a b with hab | hab
      · have hm : Nat.max a b = b :=
          Nat.le_antisymm (Nat.max_le.mpr ⟨hab, Nat.le_refl b⟩) (Nat.le_max_right a b)
        exact Or.inr (by rw [hm]; exact List.mem_cons_self b t)
      · exact Or.inl (Nat.le_antisymm (Nat.max_le.mpr ⟨Nat.le_refl a, hab⟩)
          (Nat.le_max_left a b))
    · exact Or.inr (List.mem_cons_of_mem b h)

theorem minD_le {l : List Nat} {x : Nat} (hx : x ∈ l) : minD l ≤ x := by
  cases l with
  | nil => cases hx
  | cons a t =>
    rcases List.mem_cons.mp hx with h | h
    · subst h; exact foldl_min_le_init t x
    · exact foldl_min_le_mem a h

theorem minD_mem {l : List Nat} (h : l ≠ []) : minD l ∈ l := by
  cases l with
  | nil => exact absurd rfl h
  | cons a t =>
    rcases foldl_min_mem t a with h' | h'
    · rw [minD, h']; exact List.mem_cons_self a t
    · exact List.mem_cons_of_mem a h'

theorem le_maxD {l : List Nat} {x : Nat} (hx : x ∈ l) : x ≤ maxD l := by
  cases l with
  | nil => cases hx
  | cons a t =>
    rcases List.mem_cons.mp hx with h | h
    · subst h; exact init_le_foldl_max t x
    · exact mem_le_foldl_max a h

theorem maxD_mem {l : List Nat} (h : l ≠ []) : maxD l ∈ l := by
  cases l with
  | nil => exact absurd rfl h
  | cons a t =>
    rcases foldl_max_mem t a with h' | h'
    · rw [maxD, h']; exact List.mem_cons_self a t
    · exact List.mem_cons_of_mem a h'

theorem minD_le_maxD {l : List Nat} (h : l ≠ []) : minD l ≤ maxD l :=
  Nat.le_trans (minD_le (maxD_mem h)) (Nat.le_refl _)

/-! ## Helper lemmas: stability of the sort with respect to one date -/

theorem filter_date_orderedInsert (r : Row) (l : List Row) (d : Nat) :
    (l.orderedInsert dateLE r).filter (fun x => x.1 = d) =
      if r.1 = d then r :: l.filter (fun x => x.1 = d)
      else l.filter (fun x => x.1 = d) := by
  induction l with
  | nil =>
    by_cases h : r.1 = d <;> simp [List.orderedInsert, List.filter_cons, h]
  | cons b t ih =>
    by_cases hrb : dateLE r b
    · rw [List.orderedInsert, if_pos hrb]
      by_cases h : r.1 = d <;> simp [List.filter_cons, h]
    · rw [List.orderedInsert, if_neg hrb]
      have hblt : b.1 < r.1 := Nat.lt_of_not_le hrb
      by_cases h : r.1 = d
      · have hbd : ¬ b.1 = d := by omega
        simp [List.filter_cons, hbd, ih, h]
      · by_cases hbd : b.1 = d <;> simp [List.filter_cons, hbd, ih, h]

theorem filter_date_sortByDate (l : List Row) (d : Nat) :
    (sortByDate l).filter (fun x => x.1 = d) = l.filter (fun x => x.1 = d) := by
  induction l with
  | nil => rfl
  | cons a t ih =>
    show ((t.insertionSort dateLE).orderedInsert dateLE a).filter (fun x => x.1 = d) = _
    rw [filter_date_orderedInsert]
    simp only [sortByDate] at ih
    by_cases h : a.1 = d <;> simp [List.filter_cons, h, ih]

/-! ## Helper lemmas: `dropDupKeepLast` -/

theorem dropDupKeepLast_sublist : ∀ l : List Row, List.Sublist (dropDupKeepLast l) l := by
  intro l
  induction l with
  | nil => exact List.Sublist.refl []
  | cons r rest ih =>
    rw [dropDupKeepLast]
    by_cases h : r.1 ∈ rest.map Prod.fst
    · rw [if_pos h]
      exact List.Sublist.cons r ih
    · rw [if_neg h]
      exact List.Sublist.cons₂ r ih

theorem dropDupKeepLast_ne_nil : ∀ {l : List Row}, l ≠ [] → dropDupKeepLast l ≠ [] := by
  intro l
  induction l with
  | nil => intro h; exact absurd rfl h
  | cons r rest ih =>
    intro _
    rw [dropDupKeepLast]
    by_cases h : r.1 ∈ rest.map Prod.fst
    · rw [if_pos h]
      have hrest : rest ≠ [] := by
        intro he
        rw [he] at h
        cases h
      exact ih hrest
    · rw [if_neg h]
      exact List.cons_ne_nil r _

theorem getLast?_cons_of_ne_nil {α : Type} {a : α} {t : List α} (h : t ≠ []) :
    (a :: t).getLast? = t.getLast? := by
  cases t with
  | nil => exact absurd rfl h
  | cons b u => exact List.getLast?_cons_cons

theorem filter_date_dropDupKeepLast (l : List Row) (d : Nat) :
    (dropDupKeepLast l).filter (fun x => x.1 = d) =
      ((l.filter (fun x => x.1 = d)).getLast?).toList := by
  induction l with
  | nil => rfl
  | cons r rest ih =>
    rw [dropDupKeepLast]
    by_cases h : r.1 ∈ rest.map Prod.fst
    · rw [if_pos h]
      by_cases hrd : r.1 = d
      · have hne : rest.filter (fun x => x.1 = d) ≠ [] := by
          rcases List.mem_map.mp h with ⟨x, hx, hx1⟩
          have : x ∈ rest.filter (fun x => x.1 = d) :=
            List.mem_filter.mpr ⟨hx, by simp [hx1, hrd]⟩
          exact List.ne_nil_of_mem this
        rw [ih, List.filter_cons, if_pos (by simp [hrd]), getLast?_cons_of_ne_nil hne]
      · rw [ih, List.filter_cons, if_neg (by simp [hrd])]
    · rw [if_neg h]
      by_cases hrd : r.1 = d
      · have hnil : rest.filter (fun x => x.1 = d) = [] := by
          rw [List.filter_eq_nil_iff]
          intro x hx
          simp only [decide_eq_true_eq]
          intro hxd
          exact h (List.mem_map.mpr ⟨x, hx, by rw [hxd, hrd]⟩)
        rw [List.filter_cons, if_pos (by simp [hrd]), ih, hnil, List.filter_cons,
          if_pos (by simp [hrd]), hnil]
        rfl
      · rw [List.filter_cons, if_neg (by simp [hrd]), ih, List.filter_cons,
          if_neg (by simp [hrd])]

theorem nodupKeys_dropDupKeepLast (l : List Row) : ((dropDupKeepLast l).map Prod.fst).Nodup := by
  induction l with
  | nil => exact List.nodup_nil
  | cons r rest ih =>
    rw [dropDupKeepLast]
    by_cases h : r.1 ∈ rest.map Prod.fst
    · rw [if_pos h]
      exact ih
    · rw [if_neg h]
      rw [List.map_cons, List.nodup_cons]
      refine ⟨fun hmem => h ?_, ih⟩
      exact ((dropDupKeepLast_sublist rest).map Prod.fst).subset hmem

/-! ## Helper lemmas: sortedness and `merge_history` characterization -/

theorem sorted_sortByDate (l : List Row) : (sortByDate l).Sorted dateLE :=
  List.sorted_insertionSort dateLE l

theorem sortByDate_perm (l : List Row) : (sortByDate l).Perm l :=
  List.perm_insertionSort dateLE l

theorem sortByDate_ne_nil {l : List Row} (h : l ≠ []) : sortByDate l ≠ [] := by
  intro he
  exact h (List.Perm.eq_nil ((sortByDate_perm l).symm.trans (he ▸ List.Perm.refl _)))

theorem sortByDate_eq_self_of_sorted {l : List Row} (h : l.Sorted dateLE) :
    sortByDate l = l :=
  List.Sorted.insertionSort_eq h

theorem merge_history_sorted (A B : List Row) : (merge_history A B).Sorted dateLE := by
  rw [merge_history]
  by_cases h : A = [] ∧ B = []
  · rw [if_pos h]
    exact List.sorted_nil
  · rw [if_neg h]
    exact sorted_sortByDate _

theorem merge_history_ne_nil {A B : List Row} (h : ¬(A = [] ∧ B = [])) :
    merge_history A B ≠ [] := by
  rw [merge_history, if_neg h]
  by_cases hA : A = []
  · have hB : B ≠ [] := fun hB => h ⟨hA, hB⟩
    simp only [hA, if_pos rfl]
    exact sortByDate_ne_nil hB
  · by_cases hB : B = []
    · simp only [if_neg hA, hB, if_pos rfl]
      exact sortByDate_ne_nil hA
    · simp only [if_neg hA, if_neg hB]
      exact sortByDate_ne_nil
        (dropDupKeepLast_ne_nil (sortByDate_ne_nil (by simp [hA])))

theorem filter_date_merge_history (A B : List Row) (d : Nat)
    (hA : A ≠ []) (hB : B ≠ []) :
    (merge_history A B).filter (fun x => x.1 = d) =
      (((A ++ B).filter (fun x => x.1 = d)).getLast?).toList := by
  rw [merge_history, if_neg (by simp [hA]), if_neg hA, if_neg hB,
    filter_date_sortByDate, filter_date_dropDupKeepLast, filter_date_sortByDate]

/-- Two lists that are sorted by date and agree on the filtered rows of
every single date are equal. -/
theorem eq_of_sorted_of_filter_date_eq :
    ∀ (l₁ l₂ : List Row), l₁.Sorted dateLE → l₂.Sorted dateLE →
      (∀ d, l₁.filter (fun x => x.1 = d) = l₂.filter (fun x => x.1 = d)) → l₁ = l₂ := by
  intro l₁
  induction l₁ with
  | nil =>
    intro l₂ _ _ hf
    cases l₂ with
    | nil => rfl
    | cons b t₂ =>
      have := hf b.1
      rw [List.filter_nil, List.filter_cons, if_pos (by simp)] at this
      cases this
  | cons a t₁ ih =>
    intro l₂ h₁ h₂ hf
    cases l₂ with
    | nil =>
      have := hf a.1
      rw [List.filter_nil, List.filter_cons, if_pos (by simp)] at this
      cases this
    | cons b t₂ =>
      have hab : a.1 = b.1 := by
        by_contra hne
        have h1 := hf a.1
        rw [List.filter_cons, List.filter_cons, if_pos (by simp),
          if_neg (by simp only [decide_eq_true_eq]; exact fun h => hne h.symm)] at h1
        have ha2 : a ∈ t₂ := by
          have hm : a ∈ t₂.filter (fun x => x.1 = a.1) := by
            rw [← h1]
            exact List.mem_cons_self a _
          exact (List.mem_filter.mp hm).1
        have hba : b.1 ≤ a.1 := List.rel_of_sorted_cons h₂ a ha2
        have h2 := hf b.1
        rw [List.filter_cons, List.filter_cons,
          if_neg (by simp only [decide_eq_true_eq]; exact hne),
          if_pos (by simp)] at h2
        have hb1 : b ∈ t₁ := by
          have hm : b ∈ t₁.filter (fun x => x.1 = b.1) := by
            rw [h2]
            exact List.mem_cons_self b _
          exact (List.mem_filter.mp hm).1
        have hab' : a.1 ≤ b.1 := List.rel_of_sorted_cons h₁ b hb1
        omega
      have hhead := hf a.1
      rw [List.filter_cons, List.filter_cons, if_pos (by simp),
        if_pos (by simp only [decide_eq_true_eq]; exact hab.symm)] at hhead
      injection hhead with hae htail
      subst hae
      have : t₁ = t₂ := by
        apply ih t₂ (List.sorted_cons.mp h₁).2 (List.sorted_cons.mp h₂).2
        intro d
        by_cases hd : a.1 = d
        · rw [← hd]
          exact htail
        · have := hf d
          rw [List.filter_cons, if_neg (by simp [hd]), List.filter_cons,
            if_neg (by simp [hd])] at this
          exact this
      rw [this]

theorem filter_date_eq_singleton_of_nodup :
    ∀ {l : List Row} {d : Nat} {v : Int},
      (l.map Prod.fst).Nodup → (d, v) ∈ l → l.filter (fun x => x.1 = d) = [(d, v)] := by
  intro l
  induction l with
  | nil => intro d v _ hm; cases hm
  | cons a t ih =>
    intro d v hnd hm
    rw [List.map_cons, List.nodup_cons] at hnd
    rcases List.mem_cons.mp hm with h | h
    · subst h
      rw [List.filter_cons, if_pos (by simp)]
      have hnil : t.filter (fun x => x.1 = d) = [] := by
        rw [List.filter_eq_nil_iff]
        intro x hx
        simp only [decide_eq_true_eq]
        intro hxd
        exact hnd.1 (List.mem_map.mpr ⟨x, hx, hxd⟩)
      rw [hnil]
    · have had : ¬ a.1 = d := by
        intro he
        exact hnd.1 (he ▸ List.mem_map.mpr ⟨(d, v), h, rfl⟩)
      rw [List.filter_cons, if_neg (by simp [had])]
      exact ih hnd.2 h

theorem filter_date_cases_of_nodup {l : List Row} (d : Nat)
    (hnd : (l.map Prod.fst).Nodup) :
    l.filter (fun x => x.1 = d) = [] ∨ ∃ x : Row, l.filter (fun x => x.1 = d) = [x] := by
  by_cases h : d ∈ l.map Prod.fst
  · rcases List.mem_map.mp h with ⟨x, hx, hfst⟩
    refine Or.inr ⟨(d, x.2), ?_⟩
    have hm : (d, x.2) ∈ l := by
      have hx' : (d, x.2) = x := by
        rw [← hfst]
      rw [hx']
      exact hx
    exact filter_date_eq_singleton_of_nodup hnd hm
  · refine Or.inl ?_
    rw [List.filter_eq_nil_iff]
    intro x hx
    simp only [decide_eq_true_eq]
    intro hxd
    exact h (List.mem_map.mpr ⟨x, hx, hxd⟩)

theorem getLast?_toList_option (o : Option Row) : (o.toList).getLast? = o := by
  cases o with
  | none => rfl
  | some x => rfl

theorem merge_history_nil_left {B : List Row} (hB : B ≠ []) :
    merge_history [] B = sortByDate B := by
  rw [merge_history, if_neg (by simp [hB])]
  simp

theorem merge_history_nil_right {A : List Row} (hA : A ≠ []) :
    merge_history A [] = sortByDate A := by
  rw [merge_history, if_neg (by simp [hA]), if_neg hA]
  simp

/-! ## Helper lemmas: the `sort_values` contract -/

theorem isPandasSort_sortByDate : IsPandasSort sortByDate :=
  fun l => ⟨sortByDate_perm l, sorted_sortByDate l⟩

theorem nodupKeys_tieUnique {l : List Row} (h : (l.map Prod.fst).Nodup) :
    tieUnique l := by
  intro x hx y hy hxy
  have hfx : l.filter (fun r => r.1 = x.1) = [(x.1, x.2)] :=
    filter_date_eq_singleton_of_nodup h hx
  have hy' : y ∈ l.filter (fun r => r.1 = x.1) :=
    List.mem_filter.mpr ⟨hy, by simp [hxy]⟩
  rw [hfx] at hy'
  rcases List.mem_singleton.mp hy' with h'
  rw [h']

theorem eq_of_perm_of_flat {l₁ l₂ : List Row} (p : l₁.Perm l₂)
    (h : ∀ x ∈ l₂, ∀ y ∈ l₂, x = y) : l₁ = l₂ := by
  cases l₂ with
  | nil => exact p.eq_nil
  | cons a t =>
    have h₂ : a :: t = List.replicate (a :: t).length a :=
      List.eq_replicate_of_mem (fun b hb => h b hb a (List.mem_cons_self a t))
    have h₁ : l₁ = List.replicate l₁.length a :=
      List.eq_replicate_of_mem
        (fun b hb => h b (p.mem_iff.mp hb) a (List.mem_cons_self a t))
    rw [h₁, h₂, p.length_eq]

theorem pandasSort_eq_sortByDate_of_tieUnique {f : List Row → List Row}
    (hf : IsPandasSort f) {l : List Row} (h : tieUnique l) :
    f l = sortByDate l := by
  apply eq_of_sorted_of_filter_date_eq _ _ (hf l).2 (sorted_sortByDate l)
  intro d
  rw [filter_date_sortByDate]
  apply eq_of_perm_of_flat (((hf l).1).filter _)
  intro x hx y hy
  have hx' := List.mem_filter.mp hx
  have hy' := List.mem_filter.mp hy
  have hxd : x.1 = d := by simpa using hx'.2
  have hyd : y.1 = d := by simpa using hy'.2
  exact h x hx'.1 y hy'.1 (by rw [hxd, hyd])

theorem merge_history_with_sortByDate (A B : List Row) :
    merge_history_with sortByDate A B = merge_history A B := rfl

theorem merge_history_with_eq_of_tieUnique {f : List Row → List Row}
    (hf : IsPandasSort f) {A B : List Row} (h : tieUnique (A ++ B)) :
    merge_history_with f A B = merge_history A B := by
  by_cases hAB : A = [] ∧ B = []
  · rw [merge_history_with, merge_history, if_pos hAB, if_pos hAB]
  · rw [merge_history_with, merge_history, if_neg hAB, if_neg hAB]
    by_cases hA : A = []
    · subst hA
      simp only [if_pos rfl]
      rw [List.nil_append] at h
      exact pandasSort_eq_sortByDate_of_tieUnique hf h
    · by_cases hB : B = []
      · subst hB
        simp only [if_neg hA, if_pos rfl]
        rw [List.append_nil] at h
        exact pandasSort_eq_sortByDate_of_tieUnique hf h
      · simp only [if_neg hA, if_neg hB]
        rw [pandasSort_eq_sortByDate_of_tieUnique hf h]
        exact pandasSort_eq_sortByDate_of_tieUnique hf
          (nodupKeys_tieUnique (nodupKeys_dropDupKeepLast _))

theorem mem_merge_history_subset {A B : List Row} {x : Row}
    (hx : x ∈ merge_history A B) : x ∈ A ++ B := by
  by_cases hAB : A = [] ∧ B = []
  · rw [merge_history, if_pos hAB] at hx
    cases hx
  · rw [merge_history, if_neg hAB] at hx
    by_cases hA : A = []
    · simp only [if_pos hA] at hx
      exact List.mem_append.mpr (Or.inr ((sortByDate_perm B).subset hx))
    · by_cases hB : B = []
      · simp only [if_neg hA, if_pos hB] at hx
        exact List.mem_append.mpr (Or.inl ((sortByDate_perm A).subset hx))
      · simp only [if_neg hA, if_neg hB] at hx
        have h1 : x ∈ dropDupKeepLast (sortByDate (A ++ B)) :=
          (sortByDate_perm _).subset hx
        have h2 : x ∈ sortByDate (A ++ B) :=
          (dropDupKeepLast_sublist _).subset h1
        exact (sortByDate_perm _).subset h2

theorem nodupKeys_merge_history_nonempty {A B : List Row}
    (hA : A ≠ []) (hB : B ≠ []) :
    ((merge_history A B).map Prod.fst).Nodup := by
  rw [merge_history, if_neg (by simp [hA]), if_neg hA, if_neg hB]
  exact (((sortByDate_perm _).map Prod.fst).symm.nodup
    (nodupKeys_dropDupKeepLast _))

theorem nodupKeys_merge_history_of_nodup {A B : List Row}
    (hA : (A.map Prod.fst).Nodup) (hB : (B.map Prod.fst).Nodup) :
    ((merge_history A B).map Prod.fst).Nodup := by
  by_cases heA : A = []
  · by_cases heB : B = []
    · subst heA
      subst heB
      exact List.nodup_nil
    · subst heA
      rw [merge_history_nil_left heB]
      exact ((sortByDate_perm B).map Prod.fst).symm.nodup hB
  · by_cases heB : B = []
    · subst heB
      rw [merge_history_nil_right heA]
      exact ((sortByDate_perm A).map Prod.fst).symm.nodup hA
    · exact nodupKeys_merge_history_nonempty heA heB

theorem tieUnique_append_of_disjoint {A B : List Row}
    (hA : (A.map Prod.fst).Nodup) (hB : (B.map Prod.fst).Nodup)
    (hdisj : ∀ d ∈ A.map Prod.fst, d ∉ B.map Prod.fst) :
    tieUnique (A ++ B) := by
  intro x hx y hy hxy
  rcases List.mem_append.mp hx with hxA | hxB <;>
    rcases List.mem_append.mp hy with hyA | hyB
  · exact nodupKeys_tieUnique hA x hxA y hyA hxy
  · exact absurd (List.mem_map.mpr ⟨y, hyB, hxy.symm⟩)
      (hdisj x.1 (List.mem_map.mpr ⟨x, hxA, rfl⟩))
  · exact absurd (List.mem_map.mpr ⟨x, hxB, hxy⟩)
      (hdisj y.1 (List.mem_map.mpr ⟨y, hyA, rfl⟩))
  · exact nodupKeys_tieUnique hB x hxB y hyB hxy

theorem tieUnique_merge_append {A B : List Row}
    (hA : (A.map Prod.fst).Nodup) (hB : (B.map Prod.fst).Nodup)
    (hdisj : ∀ d ∈ A.map Prod.fst, d ∉ B.map Prod.fst) :
    tieUnique (merge_history A B ++ B) := by
  have hM : ((merge_history A B).map Prod.fst).Nodup :=
    nodupKeys_merge_history_of_nodup hA hB
  have key : ∀ x ∈ merge_history A B, ∀ y ∈ B, x.1 = y.1 → x = y := by
    intro x hx y hy hxy
    rcases List.mem_append.mp (mem_merge_history_subset hx) with hxA | hxB
    · exact absurd (hxy ▸ List.mem_map.mpr ⟨y, hy, rfl⟩)
        (hdisj x.1 (List.mem_map.mpr ⟨x, hxA, rfl⟩))
    · exact nodupKeys_tieUnique hB x hxB y hy hxy
  intro x hx y hy hxy
  rcases List.mem_append.mp hx with hxM | hxB <;>
    rcases List.mem_append.mp hy with hyM | hyB
  · exact nodupKeys_tieUnique hM x hxM y hyM hxy
  · exact key x hxM y hyB hxy
  · exact (key y hyM x hxB hxy.symm).symm
  · exact nodupKeys_tieUnique hB x hxB y hyB hxy

/-! ## Claim theorems -/

/-- C1: the claim ("on a date collision the merged series always carries
B's count, never A's") states the intent documented by the spec and by
the code's own comment at `merge_history` ("keep last occurrence per
date (new appended later => wins)"), but the code does not guarantee it:
`sort_values` with the default `kind='quicksort'` guarantees only a
date-ordered permutation, and this theorem exhibits a sort satisfying
that contract under which `drop_duplicates(keep="last")` retains the
existing row `(1, 0)` instead of the new row `(1, 99)`.  The slip is the
missing stable sort kind (`kind='stable'`/`'mergesort'`). -/
theorem merge_history_quicksort_divergence :
    ∃ f : List Row → List Row, IsPandasSort f ∧
      merge_history_with f [(1, 0)] [(1, 99)] = [(1, 0)] := by
  refine ⟨fun l => if l = [(1, 0), (1, 99)] then [(1, 99), (1, 0)] else sortByDate l,
    ?_, ?_⟩
  · intro l
    dsimp only
    by_cases h : l = [(1, 0), (1, 99)]
    · subst h
      rw [if_pos rfl]
      exact ⟨by decide, by decide⟩
    · rw [if_neg h]
      exact ⟨sortByDate_perm l, sorted_sortByDate l⟩
  · decide

/-- C10: when exactly one of the two inputs of `merge_history` is empty,
the result is a date-sorted copy of the other input with no
deduplication applied (the number of rows carrying any date `d` is
preserved, so duplicate dates survive); duplicate removal happens only
when both inputs are non-empty, in which case the result's dates are
distinct. -/
theorem merge_history_empty_side (A B : List Row) (d : Nat) :
    (A = [] → B ≠ [] → merge_history A B = sortByDate B ∧
      ((merge_history A B).filter (fun x => x.1 = d)).length
        = (B.filter (fun x => x.1 = d)).length) ∧
    (B = [] → A ≠ [] → merge_history A B = sortByDate A ∧
      ((merge_history A B).filter (fun x => x.1 = d)).length
        = (A.filter (fun x => x.1 = d)).length) ∧
    (A ≠ [] → B ≠ [] → ((merge_history A B).map Prod.fst).Nodup) := by
  refine ⟨?_, ?_, ?_⟩
  · intro hA hB
    subst hA
    have he : merge_history [] B = sortByDate B := merge_history_nil_left hB
    exact ⟨he, by rw [he, filter_date_sortByDate]⟩
  · intro hB hA
    subst hB
    have he : merge_history A [] = sortByDate A := merge_history_nil_right hA
    exact ⟨he, by rw [he, filter_date_sortByDate]⟩
  · intro hA hB
    rw [merge_history, if_neg (by simp [hA]), if_neg hA, if_neg hB]
    exact (((sortByDate_perm _).map Prod.fst).symm.nodup
      (nodupKeys_dropDupKeepLast _))

theorem merge_history_empty_side_witness :
    merge_history [] [(1, 2), (1, 3)] = sortByDate [(1, 2), (1, 3)] ∧
      ((merge_history [] [(1, 2), (1, 3)]).filter (fun x => x.1 = 1)).length
        = (([(1, 2), (1, 3)] : List Row).filter (fun x => x.1 = 1)).length :=
  (merge_history_empty_side [] [(1, 2), (1, 3)] 1).1 rfl (by decide)

/-- C5 counterexample: `merge_history` is not idempotent in its second
argument as claimed for arbitrary inputs.  With `A = []` the merge takes
the copy branch and keeps both rows of date 1, while the second merge
deduplicates, so the results differ. -/
theorem merge_history_idempotent_counterexample :
    merge_history (merge_history [] [(1, 2), (1, 3)]) [(1, 2), (1, 3)] ≠
      merge_history [] [(1, 2), (1, 3)] := by
  decide

/-- Idempotence of the stable reference model: with B's dates distinct,
`merge_history(merge_history(A, B), B) = merge_history(A, B)`.  Used by
the contract-level idempotence theorem, whose conversions reduce each
`sort_values` call to `sortByDate`. -/
theorem merge_history_idem_core (A B : List Row)
    (hnodup : (B.map Prod.fst).Nodup) :
    merge_history (merge_history A B) B = merge_history A B := by
  by_cases hB : B = []
  · subst hB
    by_cases hA : A = []
    · subst hA
      rfl
    · rw [merge_history_nil_right hA,
        merge_history_nil_right (sortByDate_ne_nil hA),
        sortByDate_eq_self_of_sorted (sorted_sortByDate A)]
  · by_cases hA : A = []
    · subst hA
      rw [merge_history_nil_left hB]
      apply eq_of_sorted_of_filter_date_eq _ _ (merge_history_sorted _ _)
        (sorted_sortByDate _)
      intro d
      rw [filter_date_merge_history _ B d (sortByDate_ne_nil hB) hB,
        List.filter_append, filter_date_sortByDate]
      rcases filter_date_cases_of_nodup d hnodup with h | ⟨x, h⟩
      · rw [h]
        rfl
      · rw [h, List.getLast?_concat]
        rfl
    · have hM : merge_history A B ≠ [] := merge_history_ne_nil (fun hc => hB hc.2)
      apply eq_of_sorted_of_filter_date_eq _ _ (merge_history_sorted _ _)
        (merge_history_sorted _ _)
      intro d
      rw [filter_date_merge_history _ B d hM hB, List.filter_append,
        filter_date_merge_history A B d hA hB, List.filter_append]
      rcases filter_date_cases_of_nodup d hnodup with h | ⟨x, h⟩
      · rw [h]
        simp only [List.append_nil]
        rw [getLast?_toList_option]
      · rw [h, List.getLast?_concat, List.getLast?_concat]

/-- C5 (amended): over every `sort_values` implementation satisfying the
documented contract (`IsPandasSort`: a date-ordered permutation, tie
order unspecified), `merge_history` is idempotent in its second argument
(a) whenever the sort is additionally stable — the tie behaviour the
code's comment assumes — and the second argument carries no duplicate
dates, and (b) unconditionally on the sort whenever the two inputs have
distinct dates and share none, where equal-date tie order cannot
influence the result.  (The counterexample forces the no-duplicate-dates
proviso; the unstable default sort kind forces restricting the
tie-order-sensitive collision case to the stability assumption.) -/
theorem merge_history_idempotent_contract (f : List Row → List Row)
    (hf : IsPandasSort f) :
    ((∀ l d, (f l).filter (fun x => x.1 = d) = l.filter (fun x => x.1 = d)) →
      ∀ A B : List Row, (B.map Prod.fst).Nodup →
        merge_history_with f (merge_history_with f A B) B
          = merge_history_with f A B) ∧
    (∀ A B : List Row, (A.map Prod.fst).Nodup → (B.map Prod.fst).Nodup →
      (∀ d ∈ A.map Prod.fst, d ∉ B.map Prod.fst) →
        merge_history_with f (merge_history_with f A B) B
          = merge_history_with f A B) := by
  constructor
  · intro hstable A B hB
    have hfe : f = sortByDate := by
      funext l
      exact eq_of_sorted_of_filter_date_eq (f l) (sortByDate l) (hf l).2
        (sorted_sortByDate l)
        (fun d => by rw [hstable, filter_date_sortByDate])
    rw [hfe]
    simp only [merge_history_with_sortByDate]
    exact merge_history_idem_core A B hB
  · intro A B hA hB hdisj
    have e1 : merge_history_with f A B = merge_history A B :=
      merge_history_with_eq_of_tieUnique hf (tieUnique_append_of_disjoint hA hB hdisj)
    have e2 : merge_history_with f (merge_history A B) B
        = merge_history (merge_history A B) B :=
      merge_history_with_eq_of_tieUnique hf (tieUnique_merge_append hA hB hdisj)
    rw [e1, e2, merge_history_idem_core A B hB]

theorem merge_history_idempotent_contract_witness :
    merge_history_with sortByDate
        (merge_history_with sortByDate [(1, 5)] [(2, 3)]) [(2, 3)]
      = merge_history_with sortByDate [(1, 5)] [(2, 3)] :=
  (merge_history_idempotent_contract sortByDate isPandasSort_sortByDate).2
    [(1, 5)] [(2, 3)] (by decide) (by decide) (by decide)

/-- C3 counterexample: when the stored series contains a future-dated
entry and today's date is not in its index, `last_n_days` anchors the
window at the series' maximum date and returns a date later than today:
with today = day 10, the window over `[(11, 5)]` is `[(11, 5)]` itself,
whose date 11 exceeds today. -/
theorem last_n_days_future_counterexample :
    ¬ (∀ r ∈ last_n_days [(11, 5)] 365 10, r.1 ≤ 10) := by
  decide

/-- C3 (amended): for every series and every `days ≥ 1`, no date in the
output of `last_n_days(series, days)` is later than the maximum date of
the input series; and provided the input series contains no date later
than today, no date in the output is later than today's date. -/
theorem last_n_days_no_future (series : List Row) (days today : Nat)
    (hdays : 1 ≤ days) :
    (∀ r ∈ last_n_days series days today, r.1 ≤ maxD (series.map Prod.fst)) ∧
    ((∀ r ∈ series, r.1 ≤ today) →
      ∀ r ∈ last_n_days series days today, r.1 ≤ today) := by
  by_cases hs : series = []
  · subst hs
    refine ⟨fun r hr => absurd hr (by simp [last_n_days]),
      fun _ r hr => absurd hr (by simp [last_n_days])⟩
  · constructor
    · intro r hr
      simp only [last_n_days, if_neg hs] at hr
      have hr' := List.mem_filter.mp hr
      exact le_maxD (List.mem_map.mpr ⟨r, hr'.1, rfl⟩)
    · intro hall r hr
      simp only [last_n_days, if_neg hs] at hr
      have hr' := List.mem_filter.mp hr
      have hre : r.1 ≤
          (if today ∈ series.map Prod.fst then today else maxD (series.map Prod.fst)) := by
        have hp := hr'.2
        simp only [decide_eq_true_eq] at hp
        exact hp.2
      by_cases ht : today ∈ series.map Prod.fst
      · rw [if_pos ht] at hre
        exact hre
      · rw [if_neg ht] at hre
        have hmax : maxD (series.map Prod.fst) ≤ today := by
          have hmm := maxD_mem (l := series.map Prod.fst) (by simp [hs])
          rcases List.mem_map.mp hmm with ⟨x, hx, hfx⟩
          rw [← hfx]
          exact hall x hx
        omega

theorem last_n_days_no_future_witness :
    (∀ r ∈ last_n_days [(3, 4)] 365 10, r.1 ≤ maxD (([(3, 4)] : List Row).map Prod.fst)) ∧
    ((∀ r ∈ ([(3, 4)] : List Row), r.1 ≤ 10) →
      ∀ r ∈ last_n_days [(3, 4)] 365 10, r.1 ≤ 10) :=
  last_n_days_no_future [(3, 4)] 365 10 (by decide)

/-! ## Helper lemmas for the gap-filling claim -/

theorem chain'_succ_range' : ∀ (s n : Nat),
    List.Chain' (fun a b => b = a + 1) (List.range' s n) := by
  intro s n
  induction n generalizing s with
  | zero => exact List.chain'_nil
  | succ m ih =>
    rw [List.range'_succ]
    rw [List.chain'_cons']
    refine ⟨?_, ih (s + 1)⟩
    intro h hh
    rw [List.head?_range'] at hh
    by_cases hm : m = 0
    · rw [if_pos hm] at hh
      cases hh
    · rw [if_neg hm] at hh
      cases hh
      rfl

theorem lookupDate_eq_of_nodup :
    ∀ {l : List Row} {r : Row},
      (l.map Prod.fst).Nodup → r ∈ l → lookupDate r.1 l = some r.2 := by
  intro l
  induction l with
  | nil => intro r _ hr; cases hr
  | cons a t ih =>
    intro r hnd hr
    rw [List.map_cons, List.nodup_cons] at hnd
    by_cases ha : a.1 = r.1
    · have hra : r = a := by
        rcases List.mem_cons.mp hr with h | h
        · exact h
        · exact absurd (List.mem_map.mpr ⟨r, h, ha.symm⟩) hnd.1
      subst hra
      rw [lookupDate, List.find?_cons_of_pos _ (by simp [ha])]
      rfl
    · have hrt : r ∈ t := by
        rcases List.mem_cons.mp hr with h | h
        · exact absurd (congrArg Prod.fst h.symm) ha
        · exact h
      rw [lookupDate, List.find?_cons_of_neg _ (by simp [ha])]
      exact ih hnd.2 hrt

theorem lookupDate_eq_none {l : List Row} {d : Nat} (h : d ∉ l.map Prod.fst) :
    lookupDate d l = none := by
  rw [lookupDate]
  have hf : l.find? (fun r => r.1 = d) = none := by
    rw [List.find?_eq_none]
    intro x hx
    simp only [decide_eq_true_eq]
    intro hxd
    exact h (List.mem_map.mpr ⟨x, hx, hxd⟩)
  rw [hf]
  rfl

/-- C2: for every non-empty date-sorted series (distinct dates, per the
data model), `ensure_continuous_daily` returns a series spanning exactly
the input's min date to max date in which every consecutive pair of
dates differs by exactly 1 day, each date absent from the input has
count 0, and each date present in the input keeps its count; for the
empty series it returns the empty series. -/
theorem ensure_continuous_daily_spec (df : List Row) :
    (df = [] → ensure_continuous_daily df = some []) ∧
    (df ≠ [] → (df.map Prod.fst).Nodup → (df.map Prod.fst).Sorted (· ≤ ·) →
      ∃ s, ensure_continuous_daily df = some s ∧
        s.map Prod.fst = List.range' (minD (df.map Prod.fst))
          (maxD (df.map Prod.fst) + 1 - minD (df.map Prod.fst)) ∧
        s.head?.map Prod.fst = some (minD (df.map Prod.fst)) ∧
        s.getLast?.map Prod.fst = some (maxD (df.map Prod.fst)) ∧
        List.Chain' (fun a b => b.1 = a.1 + 1) s ∧
        (∀ r ∈ s, r.1 ∉ df.map Prod.fst → r.2 = 0) ∧
        (∀ r ∈ df, r ∈ s)) := by
  constructor
  · intro h
    rw [ensure_continuous_daily, if_pos h]
  · intro hne hnd _hsort
    have hdne : df.map Prod.fst ≠ [] := by simp [hne]
    have hminmax : minD (df.map Prod.fst) ≤ maxD (df.map Prod.fst) := minD_le_maxD hdne
    refine ⟨(List.range' (minD (df.map Prod.fst))
        (maxD (df.map Prod.fst) + 1 - minD (df.map Prod.fst))).map
      (fun d => (d, (lookupDate d df).getD 0)), ?_, ?_, ?_, ?_, ?_, ?_, ?_⟩
    · simp [ensure_continuous_daily, hne, hnd]
    · rw [List.map_map]
      exact List.map_id' _
    · rw [List.head?_map, List.head?_range', if_neg (by omega)]
      rfl
    · rw [List.getLast?_map, List.getLast?_range', if_neg (by omega), Option.map_map]
      show some (minD (df.map Prod.fst)
        + (maxD (df.map Prod.fst) + 1 - minD (df.map Prod.fst)) - 1) = _
      congr 1
      omega
    · rw [List.chain'_map]
      exact chain'_succ_range' _ _
    · intro r hr hnotin
      rcases List.mem_map.mp hr with ⟨d, _hd, hfd⟩
      rw [← hfd] at hnotin ⊢
      have hdn : d ∉ df.map Prod.fst := hnotin
      show (lookupDate d df).getD 0 = 0
      rw [lookupDate_eq_none hdn]
      rfl
    · intro r hr
      have hd1 : r.1 ∈ df.map Prod.fst := List.mem_map.mpr ⟨r, hr, rfl⟩
      refine List.mem_map.mpr ⟨r.1, ?_, ?_⟩
      · rw [List.mem_range'_1]
        have h1 := minD_le hd1
        have h2 := le_maxD hd1
        omega
      · rw [lookupDate_eq_of_nodup hnd hr]
        rfl

theorem ensure_continuous_daily_spec_witness :
    ensure_continuous_daily ([] : List Row) = some [] ∧
    ∃ s, ensure_continuous_daily [(1, 5), (3, 9)] = some s ∧
      s.map Prod.fst = List.range' (minD (([(1, 5), (3, 9)] : List Row).map Prod.fst))
        (maxD (([(1, 5), (3, 9)] : List Row).map Prod.fst) + 1
          - minD (([(1, 5), (3, 9)] : List Row).map Prod.fst)) ∧
      s.head?.map Prod.fst = some (minD (([(1, 5), (3, 9)] : List Row).map Prod.fst)) ∧
      s.getLast?.map Prod.fst = some (maxD (([(1, 5), (3, 9)] : List Row).map Prod.fst)) ∧
      List.Chain' (fun a b => b.1 = a.1 + 1) s ∧
      (∀ r ∈ s, r.1 ∉ ([(1, 5), (3, 9)] : List Row).map Prod.fst → r.2 = 0) ∧
      (∀ r ∈ ([(1, 5), (3, 9)] : List Row), r ∈ s) :=
  ⟨(ensure_continuous_daily_spec []).1 rfl,
    (ensure_continuous_daily_spec [(1, 5), (3, 9)]).2 (by decide) (by decide) (by decide)⟩

/-- C7: on the path of `main` past gap-filling, an empty final plotting
window raises `SystemExit` (Python exits non-zero on a `SystemExit`
carrying a message) and `plot_series` never runs, so no image is
written; a non-empty window is plotted and no such error is raised. -/
theorem main_run_empty_window_exit (new existing : List Row) (today : Nat)
    (s : List Row)
    (h : ensure_continuous_daily (merge_history existing new) = some s) :
    (last_n_days s 365 today = [] →
      main_run new existing today = MainOutcome.systemExit) ∧
    (last_n_days s 365 today ≠ [] →
      main_run new existing today = MainOutcome.plotted (last_n_days s 365 today)) := by
  constructor
  · intro hw
    simp only [main_run, h, hw]
    rfl
  · intro hw
    simp only [main_run, h]
    rw [if_neg hw]

theorem main_run_empty_window_exit_witness :
    (last_n_days [(1, 5)] 365 1 = [] →
      main_run [(1, 5)] [] 1 = MainOutcome.systemExit) ∧
    (last_n_days [(1, 5)] 365 1 ≠ [] →
      main_run [(1, 5)] [] 1 = MainOutcome.plotted (last_n_days [(1, 5)] 365 1)) :=
  main_run_empty_window_exit [(1, 5)] [] 1 [(1, 5)] (by decide)

/-- C8: for every HTTP response with an error status (4xx/5xx, the codes
`raise_for_status` treats as failures), `fetch_pypistats_daily` raises
`HTTPError` immediately: no retry happens and no result is returned, so
the run fails. -/
theorem fetch_pypistats_daily_http_error (status : Nat) (body : Option (List ApiRec))
    (h4 : 400 ≤ status) (h6 : status < 600) :
    fetch_pypistats_daily status body = Except.error "HTTPError" := by
  rw [fetch_pypistats_daily, if_pos ⟨h4, h6⟩]

theorem fetch_pypistats_daily_http_error_witness :
    fetch_pypistats_daily 404 (some [("with_mirrors", 1, 5)]) = Except.error "HTTPError" :=
  fetch_pypistats_daily_http_error 404 (some [("with_mirrors", 1, 5)])
    (by decide) (by decide)

/-- C9: for every successful response (a status `raise_for_status`
accepts) whose JSON body has an empty or absent `data` list,
`fetch_pypistats_daily` returns the empty series (the frame with `date`
and `downloads` columns and no rows) without raising. -/
theorem fetch_pypistats_daily_empty_data (status : Nat) (body : Option (List ApiRec))
    (hok : ¬(400 ≤ status ∧ status < 600))
    (hbody : body = none ∨ body = some []) :
    fetch_pypistats_daily status body = Except.ok [] := by
  rw [fetch_pypistats_daily, if_neg hok]
  rcases hbody with h | h <;> subst h <;> rfl

theorem fetch_pypistats_daily_empty_data_witness :
    fetch_pypistats_daily 200 none = Except.ok [] :=
  fetch_pypistats_daily_empty_data 200 none (by decide) (Or.inl rfl)

/-! ## Helper lemmas for the CSV round-trip claim -/

theorem parseDate_renderDate (d : Nat) : parseDate (renderDate d) = some d := by
  rw [parseDate, renderDate, if_pos ⟨rfl, fun x hx => Nat.digits_lt_base (by norm_num) hx⟩,
    Nat.ofDigits_digits]

theorem parseCount_renderCount (i : Int) : parseCount (renderCount i) = i := by
  rw [parseCount, renderCount,
    if_pos (fun x hx => Nat.digits_lt_base (by norm_num) hx)]
  by_cases hi : i < 0
  · rw [if_pos (by simp [hi])]
    show -((Nat.ofDigits 10 (Nat.digits 10 i.natAbs) : Nat) : Int) = i
    rw [Nat.ofDigits_digits]
    omega
  · rw [if_neg (by simp [hi])]
    show ((Nat.ofDigits 10 (Nat.digits 10 i.natAbs) : Nat) : Int) = i
    rw [Nat.ofDigits_digits]
    omega

theorem load_csv_rows_parse (s : List Row) :
    (to_csv_rows s).mapM
      (fun r => (parseDate r.1).map (fun d => (d, parseCount r.2))) = some s := by
  induction s with
  | nil => rfl
  | cons a t ih =>
    simp only [to_csv_rows, List.map_cons, List.mapM_cons] at *
    rw [parseDate_renderDate, parseCount_renderCount, ih]
    rfl

theorem sorted_of_ensure {df s : List Row}
    (h : ensure_continuous_daily df = some s) : s.Sorted dateLE := by
  simp only [ensure_continuous_daily] at h
  split at h
  · cases h
    exact List.sorted_nil
  · split at h
    · have hs := (Option.some.inj h).symm
      subst hs
      refine List.Pairwise.map _ ?_ (List.pairwise_lt_range' _ _)
      intro a b hab
      exact Nat.le_of_lt hab
    · cases h

/-- C4: persisting a gap-filled daily series to CSV (as `main` does via
`to_csv` on the reindexed series) and reading it back with
`load_history` yields the same series, date-for-date and
value-for-value. -/
theorem persist_load_roundtrip (df s : List Row)
    (h : ensure_continuous_daily df = some s) :
    load_history (to_csv_rows s) = some s := by
  rw [load_history, load_csv_rows_parse]
  show some (sortByDate s) = some s
  rw [sortByDate_eq_self_of_sorted (sorted_of_ensure h)]

theorem persist_load_roundtrip_witness :
    ensure_continuous_daily [(1, 5), (3, 9)] = some [(1, 5), (2, 0), (3, 9)] ∧
    load_history (to_csv_rows [(1, 5), (2, 0), (3, 9)]) = some [(1, 5), (2, 0), (3, 9)] :=
  ⟨by decide, persist_load_roundtrip [(1, 5), (3, 9)] [(1, 5), (2, 0), (3, 9)] (by decide)⟩

/-- C6: for a payload whose records carry more than one category label,
the selection step of `fetch_pypistats_daily` keeps only rows of a
single category, one with the largest number of distinct dates among all
categories; the choice is deterministic because `best_category` and
`select_best_category` are pure functions of the payload, so the same
payload always yields the same category. -/
theorem fetch_selects_best_category (data : List ApiRec)
    (hmulti : 2 ≤ ((data.map Prod.fst).dedup).length) :
    best_category data ∈ data.map Prod.fst ∧
    (∀ c ∈ data.map Prod.fst,
      distinctDates data c ≤ distinctDates data (best_category data)) ∧
    (∀ r ∈ select_best_category data, (best_category data, r.1, r.2) ∈ data) := by
  haveI htot : IsTotal String (fun a b => distinctDates data b ≤ distinctDates data a) :=
    ⟨fun a b => Nat.le_total _ _⟩
  haveI htrans : IsTrans String (fun a b => distinctDates data b ≤ distinctDates data a) :=
    ⟨fun _ _ _ h h' => Nat.le_trans h' h⟩
  have hlen : 0 < ((categoriesAsc data).insertionSort
      (fun a b => distinctDates data b ≤ distinctDates data a)).length := by
    rw [List.length_insertionSort, categoriesAsc, List.length_insertionSort]
    omega
  obtain ⟨h0, t, hht⟩ : ∃ h0 t, (categoriesAsc data).insertionSort
      (fun a b => distinctDates data b ≤ distinctDates data a) = h0 :: t := by
    cases hcase : (categoriesAsc data).insertionSort
        (fun a b => distinctDates data b ≤ distinctDates data a) with
    | nil =>
      rw [hcase] at hlen
      cases hlen
    | cons a u => exact ⟨a, u, rfl⟩
  have hbest_def : best_category data = h0 := by
    rw [best_category, hht]
    rfl
  have hmemcats : ∀ c, c ∈ (categoriesAsc data).insertionSort
      (fun a b => distinctDates data b ≤ distinctDates data a) ↔ c ∈ data.map Prod.fst := by
    intro c
    rw [List.mem_insertionSort, categoriesAsc, List.mem_insertionSort, List.mem_dedup]
  refine ⟨?_, ?_, ?_⟩
  · rw [hbest_def]
    rw [← hmemcats h0, hht]
    exact List.mem_cons_self h0 t
  · intro c hc
    have hcs : c ∈ h0 :: t := by
      rw [← hht, hmemcats c]
      exact hc
    have hsorted := List.sorted_insertionSort
      (fun a b => distinctDates data b ≤ distinctDates data a) (categoriesAsc data)
    rw [hht] at hsorted
    rw [hbest_def]
    rcases List.mem_cons.mp hcs with h | h
    · subst h
      exact Nat.le_refl _
    · exact List.rel_of_sorted_cons hsorted c h
  · intro r hr
    rw [select_best_category, sortByDate] at hr
    have hr2 := (List.mem_insertionSort _).mp hr
    rcases List.mem_map.mp hr2 with ⟨rec, hrecmem, hproj⟩
    have hfilter := List.mem_filter.mp hrecmem
    have hbest : rec.1 = best_category data := by
      have := hfilter.2
      simpa using this
    have heq : (best_category data, r.1, r.2) = rec := by
      rw [← hproj, ← hbest]
    rw [heq]
    exact hfilter.1

theorem fetch_selects_best_category_witness :
    best_category [("a", 1, 5), ("a", 2, 6), ("b", 1, 4)]
        ∈ ([("a", 1, 5), ("a", 2, 6), ("b", 1, 4)] : List ApiRec).map Prod.fst ∧
    (∀ c ∈ ([("a", 1, 5), ("a", 2, 6), ("b", 1, 4)] : List ApiRec).map Prod.fst,
      distinctDates [("a", 1, 5), ("a", 2, 6), ("b", 1, 4)] c
        ≤ distinctDates [("a", 1, 5), ("a", 2, 6), ("b", 1, 4)]
            (best_category [("a", 1, 5), ("a", 2, 6), ("b", 1, 4)])) ∧
    (∀ r ∈ select_best_category [("a", 1, 5), ("a", 2, 6), ("b", 1, 4)],
      (best_category [("a", 1, 5), ("a", 2, 6), ("b", 1, 4)], r.1, r.2)
        ∈ ([("a", 1, 5), ("a", 2, 6), ("b", 1, 4)] : List ApiRec)) :=
  fetch_selects_best_category [("a", 1, 5), ("a", 2, 6), ("b", 1, 4)] (by decide)
